import Mathlib

/-!
The load registry of `shadow/boot/static.js`.

The script builds `$CLJS.SHADOW_ENV`: an object `env` whose three functions
`setLoaded`, `load` and `isLoaded` close over one private object
`var loadedFiles = {}`.

The embedding follows the JavaScript semantics of the three function bodies:

* `loadedFiles` is an ordinary object created by the literal `{}`; its
  prototype is the `Object.prototype` of the realm.  It is modelled by the
  table of its own properties, in creation order.  The only writer is
  `loadedFiles[name] = true`, so own values are booleans.
* `loadedFiles[name]` (a read) is the ordinary `[[Get]]`: own property first,
  then the prototype.
* `loadedFiles[name] = true` (a write) is `PutValue` over the ordinary
  `[[Set]]`: an own property is overwritten, an inherited accessor has its
  setter called, otherwise a new own property is created.
* `paths.forEach(f)` is the index loop of `Array.prototype.forEach`.
* `a || false` yields `a` when `a` is truthy and `false` otherwise.

`Object.prototype` is the one of a standard realm (ECMA-262 with Annex B) that
the host program has not modified, and `env.setLoaded` is the function the
script installed.  Arguments are strings (`name`) and dense arrays of strings
(`paths`), as the registry's callers pass them.
-/

namespace ShadowBoot

/-! ## JavaScript values and the prototype of `{}` -/

/-- The objects of the realm that a property read on a plain object can
produce: `Object.prototype` itself, the constructor `Object`, and the
functions stored on `Object.prototype`. -/
inductive Intrinsic
  | Object
  | ObjectPrototype
  | hasOwnProperty
  | isPrototypeOf
  | propertyIsEnumerable
  | toLocaleString
  | toString
  | valueOf
  | defineGetter
  | defineSetter
  | lookupGetter
  | lookupSetter
  deriving DecidableEq, Repr

/-- The JavaScript values that occur in the registry: `undefined` (result of
reading a missing property), the booleans, and references to objects. -/
inductive Value
  | undefined
  | boolean (b : Bool)
  | object (ref : Intrinsic)
  deriving DecidableEq, Repr

/-- The abstract operation ToBoolean: `undefined` is falsy, a boolean is
itself, every object is truthy. -/
def truthy : Value → Bool
  | .undefined => false
  | .boolean b => b
  | .object _ => true

/-- The expression `a || b`: the value of `a` when it is truthy, otherwise the
value of `b`. -/
def logicalOr (a b : Value) : Value :=
  if truthy a then a else b

/-- The abrupt completions the operations could produce. -/
inductive JSError
  | TypeError
  deriving DecidableEq, Repr

deriving instance DecidableEq for Except

/-- A property of `Object.prototype`: a data property with its value and its
`[[Writable]]` attribute, or the `__proto__` accessor pair. -/
inductive InheritedProperty
  | data (value : Value) (writable : Bool)
  | protoAccessor
  deriving DecidableEq, Repr

/-- The own-property lookup `[[GetOwnProperty]]` in a table of string-keyed
properties. -/
def getOwnProperty {α : Type} : List (String × α) → String → Option α
  | [], _ => none
  | (k, v) :: rest, p => if k = p then some v else getOwnProperty rest p

/-- A data property of `Object.prototype` that holds an object and is
writable. -/
def InheritedProperty.isWritableObject : InheritedProperty → Bool
  | .data (.object _) true => true
  | _ => false

/-- The string-keyed own properties of `Object.prototype` (ECMA-262 20.1.3 and
Annex B.2.2); every data property there is writable. -/
def objectPrototypeProperties : List (String × InheritedProperty) :=
  [("constructor", .data (.object .Object) true),
   ("hasOwnProperty", .data (.object .hasOwnProperty) true),
   ("isPrototypeOf", .data (.object .isPrototypeOf) true),
   ("propertyIsEnumerable", .data (.object .propertyIsEnumerable) true),
   ("toLocaleString", .data (.object .toLocaleString) true),
   ("toString", .data (.object .toString) true),
   ("valueOf", .data (.object .valueOf) true),
   ("__defineGetter__", .data (.object .defineGetter) true),
   ("__defineSetter__", .data (.object .defineSetter) true),
   ("__lookupGetter__", .data (.object .lookupGetter) true),
   ("__lookupSetter__", .data (.object .lookupSetter) true),
   ("__proto__", .protoAccessor)]

/-- The own property `p` of `Object.prototype`, if there is one. -/
def objectPrototype (p : String) : Option InheritedProperty :=
  getOwnProperty objectPrototypeProperties p

/-! ## The object `loadedFiles` -/

/-- The state of the closure variable `loadedFiles`: the own properties of the
object, oldest first, each with its boolean value. -/
abbrev LoadedFiles := List (String × Bool)

/-- The state after `var loadedFiles = {};`. -/
def loadedFiles : LoadedFiles := []

/-- Overwrites the value of the own property `p`, keeping its position. -/
def defineOwnValue : LoadedFiles → String → Bool → LoadedFiles
  | [], _, _ => []
  | (k, v) :: rest, p, b =>
    if k = p then (k, b) :: rest else (k, v) :: defineOwnValue rest p b

/-- The getter of `Object.prototype.__proto__`, called on an object made by
`{}`: it returns the prototype of that object. -/
def protoGetter (_receiver : LoadedFiles) : Value :=
  .object .ObjectPrototype

/-- The setter of `Object.prototype.__proto__`, called with a boolean: the
argument is neither an object nor `null`, so the setter returns without
touching the receiver. -/
def protoSetter (receiver : LoadedFiles) (_proto : Bool) : LoadedFiles :=
  receiver

/-- The ordinary `[[Get]]` of `loadedFiles[p]`. -/
def ordinaryGet (o : LoadedFiles) (p : String) : Value :=
  match getOwnProperty o p with
  | some v => .boolean v
  | none =>
    match objectPrototype p with
    | some (.data v _) => v
    | some .protoAccessor => protoGetter o
    | none => .undefined

/-- The ordinary `[[Set]]` of `loadedFiles[p] = b`: the new object and the
success flag. -/
def ordinarySet (o : LoadedFiles) (p : String) (b : Bool) : LoadedFiles × Bool :=
  match getOwnProperty o p with
  | some _ => (defineOwnValue o p b, true)
  | none =>
    match objectPrototype p with
    | some (.data _ writable) => if writable then (o ++ [(p, b)], true) else (o, false)
    | some .protoAccessor => (protoSetter o b, true)
    | none => (o ++ [(p, b)], true)

/-- The operation PutValue for the assignment `loadedFiles[p] = b`: a failed
`[[Set]]` is a TypeError in strict code and is ignored otherwise. -/
def putValue (strict : Bool) (o : LoadedFiles) (p : String) (b : Bool) :
    Except JSError LoadedFiles :=
  let r := ordinarySet o p b
  if !r.2 && strict then .error .TypeError else .ok r.1

/-- The loop of `Array.prototype.forEach` over a dense array of strings:
`remaining` indices are left, `k` is the next one. -/
def forEachLoop {σ : Type} (paths : List String)
    (callbackfn : σ → String → Except JSError σ) : Nat → Nat → σ → Except JSError σ
  | 0, _, st => .ok st
  | remaining + 1, k, st =>
    match paths[k]? with
    | some kValue =>
      match callbackfn st kValue with
      | .ok st1 => forEachLoop paths callbackfn remaining (k + 1) st1
      | .error e => .error e
    | none => forEachLoop paths callbackfn remaining (k + 1) st

/-- The call `paths.forEach(callbackfn)`: indices `0` to `paths.length - 1`. -/
def forEach {σ : Type} (paths : List String)
    (callbackfn : σ → String → Except JSError σ) (st : σ) : Except JSError σ :=
  forEachLoop paths callbackfn paths.length 0 st

/-! ## The three functions of `env` -/

/-- The function `env.setLoaded`: `loadedFiles[name] = true;` in code without a
strict directive. -/
def setLoaded (reg : LoadedFiles) (name : String) : Except JSError LoadedFiles :=
  putValue false reg name true

/-- The function `env.load`:
`paths.forEach(function(name) { env.setLoaded(name); });`. -/
def load (reg : LoadedFiles) (paths : List String) : Except JSError LoadedFiles :=
  forEach paths (fun st name => setLoaded st name) reg

/-- The function `env.isLoaded`: `return loadedFiles[name] || false;`. -/
def isLoaded (reg : LoadedFiles) (name : String) : Value :=
  logicalOr (ordinaryGet reg name) (.boolean false)

/-! ## Sequences of calls -/

/-- One call made by the loader driver on `env`. -/
inductive Call
  | setLoaded (name : String)
  | load (paths : List String)
  | isLoaded (name : String)
  deriving DecidableEq, Repr

/-- The string `n` was marked by the call: it is the argument of `setLoaded`
or an element of the argument of `load`. -/
def Call.marks (n : String) : Call → Prop
  | .setLoaded name => name = n
  | .load paths => n ∈ paths
  | .isLoaded _ => False

instance Call.decidableMarks (n : String) (c : Call) : Decidable (c.marks n) := by
  cases c <;> unfold Call.marks <;> infer_instance

/-- Executes one call: the new state and the value returned to the caller. -/
def call (reg : LoadedFiles) : Call → Except JSError (LoadedFiles × Value)
  | .setLoaded name =>
    match setLoaded reg name with
    | .ok r => .ok (r, .undefined)
    | .error e => .error e
  | .load paths =>
    match load reg paths with
    | .ok r => .ok (r, .undefined)
    | .error e => .error e
  | .isLoaded name => .ok (reg, isLoaded reg name)

/-- Executes a sequence of calls, first to last, and gives the final state. -/
def run (reg : LoadedFiles) : List Call → Except JSError LoadedFiles
  | [] => .ok reg
  | c :: cs =>
    match call reg c with
    | .ok out => run out.1 cs
    | .error e => .error e

/-- The spec wording of `markAllLoaded`: "calling `markLoaded` once per
element, in order". -/
def markLoadedEach (reg : LoadedFiles) : List String → Except JSError LoadedFiles
  | [] => .ok reg
  | s :: rest =>
    match setLoaded reg s with
    | .ok r => markLoadedEach r rest
    | .error e => .error e

/-- The claim wording "S with repeated elements removed": every element is
kept at its first occurrence and dropped at the later ones. -/
def removeRepeated : List String → List String
  | [] => []
  | s :: rest => s :: (removeRepeated rest).filter (fun t => t ≠ s)

/-! ## Properties of the object operations -/

theorem objectPrototype_proto : objectPrototype "__proto__" = some .protoAccessor := by
  decide

theorem mem_of_getOwnProperty {α : Type} (l : List (String × α)) (p : String) (v : α)
    (h : getOwnProperty l p = some v) : (p, v) ∈ l := by
  induction l with
  | nil => simp [getOwnProperty] at h
  | cons kv rest ih =>
    obtain ⟨k, w⟩ := kv
    by_cases hk : k = p
    · simp [getOwnProperty, hk] at h
      simp [hk, h]
    · simp [getOwnProperty, hk] at h
      exact List.mem_cons_of_mem _ (ih h)

theorem objectPrototypeProperties_shape :
    ∀ e ∈ objectPrototypeProperties,
      (e.1 = "__proto__" ∧ e.2 = .protoAccessor) ∨
        (e.1 ≠ "__proto__" ∧ e.2.isWritableObject = true) := by
  decide

theorem objectPrototype_some (p : String) (d : InheritedProperty)
    (h : objectPrototype p = some d) :
    (p = "__proto__" ∧ d = .protoAccessor) ∨
      (p ≠ "__proto__" ∧ ∃ ref, d = .data (.object ref) true) := by
  have hmem := mem_of_getOwnProperty objectPrototypeProperties p d h
  rcases objectPrototypeProperties_shape (p, d) hmem with h1 | ⟨h1, h2⟩
  · exact Or.inl h1
  · refine Or.inr ⟨h1, ?_⟩
    cases d with
    | protoAccessor => simp [InheritedProperty.isWritableObject] at h2
    | data value writable =>
      cases value with
      | object ref =>
        cases writable with
        | true => exact ⟨ref, rfl⟩
        | false => simp [InheritedProperty.isWritableObject] at h2
      | undefined => simp [InheritedProperty.isWritableObject] at h2
      | boolean b => simp [InheritedProperty.isWritableObject] at h2

theorem objectPrototype_of_ne_proto (p : String) (hp : p ≠ "__proto__") :
    objectPrototype p = none ∨ ∃ ref, objectPrototype p = some (.data (.object ref) true) := by
  cases h : objectPrototype p with
  | none => exact Or.inl rfl
  | some d =>
    rcases objectPrototype_some p d h with ⟨h1, _⟩ | ⟨_, ref, h2⟩
    · exact absurd h1 hp
    · exact Or.inr ⟨ref, by rw [h2]⟩

theorem getOwnProperty_defineOwnValue (o : LoadedFiles) (p q : String) (b : Bool) :
    getOwnProperty (defineOwnValue o p b) q =
      if q = p then (getOwnProperty o p).map (fun _ => b) else getOwnProperty o q := by
  induction o with
  | nil => simp [defineOwnValue, getOwnProperty]
  | cons kv rest ih =>
    obtain ⟨k, v⟩ := kv
    by_cases hk : k = p
    · subst hk
      by_cases hq : q = k
      · subst hq; simp [defineOwnValue, getOwnProperty]
      · have hq2 : ¬ k = q := fun h => hq h.symm
        simp [defineOwnValue, getOwnProperty, hq, hq2]
    · by_cases hq : q = p
      · subst hq
        simp [defineOwnValue, getOwnProperty, hk, ih]
      · by_cases hkq : k = q
        · simp [defineOwnValue, getOwnProperty, hk, hq, hkq]
        · simp [defineOwnValue, getOwnProperty, hk, hq, hkq, ih]

theorem getOwnProperty_append (o : LoadedFiles) (p q : String) (b : Bool) :
    getOwnProperty (o ++ [(p, b)]) q =
      match getOwnProperty o q with
      | some v => some v
      | none => if p = q then some b else none := by
  induction o with
  | nil => simp [getOwnProperty]
  | cons kv rest ih =>
    obtain ⟨k, v⟩ := kv
    by_cases hkq : k = q
    · simp [getOwnProperty, hkq]
    · simp [getOwnProperty, hkq, ih]

/-- The own properties after `[[Set]]`: the written key holds the new value
unless the write went to the `__proto__` setter; every other key is as before. -/
theorem getOwnProperty_ordinarySet (o : LoadedFiles) (p q : String) (b : Bool) :
    getOwnProperty (ordinarySet o p b).1 q =
      if q = p ∧ (getOwnProperty o p ≠ none ∨ p ≠ "__proto__") then some b
      else getOwnProperty o q := by
  unfold ordinarySet
  cases hown : getOwnProperty o p with
  | some v =>
    by_cases hq : q = p
    · simp [getOwnProperty_defineOwnValue, hq, hown]
    · simp [getOwnProperty_defineOwnValue, hq]
  | none =>
    by_cases hp : p = "__proto__"
    · subst hp
      simp [objectPrototype_proto, protoSetter]
    · have hcases := objectPrototype_of_ne_proto p hp
      have happ := getOwnProperty_append o p q b
      by_cases hq : q = p
      · subst hq
        rw [hown] at happ
        rcases hcases with h | ⟨ref, h⟩ <;> simp [h, hp, happ]
      · have hq2 : ¬ p = q := fun h => hq h.symm
        rcases hcases with h | ⟨ref, h⟩
        · simp only [h, hq, false_and, if_false]
          rw [happ]; cases getOwnProperty o q <;> simp [hq2]
        · simp only [h, hq, false_and, if_false, if_true]
          rw [happ]; cases getOwnProperty o q <;> simp [hq2]

/-- On this object `[[Set]]` never reports failure. -/
theorem ordinarySet_succeeds (o : LoadedFiles) (p : String) (b : Bool) :
    (ordinarySet o p b).2 = true := by
  unfold ordinarySet
  cases getOwnProperty o p with
  | some v => rfl
  | none =>
    by_cases hp : p = "__proto__"
    · subst hp; simp [objectPrototype_proto]
    · rcases objectPrototype_of_ne_proto p hp with h | ⟨ref, h⟩ <;> simp [h]

theorem putValue_ok (strict : Bool) (o : LoadedFiles) (p : String) (b : Bool) :
    putValue strict o p b = .ok (ordinarySet o p b).1 := by
  simp [putValue, ordinarySet_succeeds]

theorem setLoaded_ok (reg : LoadedFiles) (name : String) :
    setLoaded reg name = .ok (ordinarySet reg name true).1 :=
  putValue_ok false reg name true

/-! ## Properties of `isLoaded` -/

/-- The answer of `isLoaded` depends on the object only through the own
property of the queried name. -/
theorem isLoaded_congr (r1 r2 : LoadedFiles) (n : String)
    (h : getOwnProperty r1 n = getOwnProperty r2 n) : isLoaded r1 n = isLoaded r2 n := by
  simp [isLoaded, ordinaryGet, protoGetter, h]

theorem isLoaded_of_own (reg : LoadedFiles) (n : String) (b : Bool)
    (h : getOwnProperty reg n = some b) : isLoaded reg n = .boolean b := by
  cases b <;> simp [isLoaded, ordinaryGet, logicalOr, truthy, h]

/-- Without an own property the answer comes from `Object.prototype`: an
object for each of its keys, `false` for every other name. -/
theorem isLoaded_of_not_own (reg : LoadedFiles) (n : String)
    (h : getOwnProperty reg n = none) :
    (objectPrototype n = none ∧ isLoaded reg n = .boolean false) ∨
      (objectPrototype n ≠ none ∧ ∃ ref, isLoaded reg n = .object ref) := by
  cases hp : objectPrototype n with
  | none =>
    left
    simp [isLoaded, ordinaryGet, logicalOr, truthy, h, hp]
  | some d =>
    right
    refine ⟨by simp, ?_⟩
    rcases objectPrototype_some n d hp with ⟨_, hd⟩ | ⟨_, ref, hd⟩
    · subst hd
      exact ⟨.ObjectPrototype, by simp [isLoaded, ordinaryGet, logicalOr, truthy, h, hp, protoGetter]⟩
    · subst hd
      exact ⟨ref, by simp [isLoaded, ordinaryGet, logicalOr, truthy, h, hp]⟩

theorem isLoaded_eq_true_iff (reg : LoadedFiles) (n : String) :
    isLoaded reg n = .boolean true ↔ getOwnProperty reg n = some true := by
  constructor
  · intro h
    cases hown : getOwnProperty reg n with
    | some b =>
      rw [isLoaded_of_own reg n b hown] at h
      simpa using h
    | none =>
      rcases isLoaded_of_not_own reg n hown with ⟨_, h2⟩ | ⟨_, ref, h2⟩
      · rw [h2] at h; simp at h
      · rw [h2] at h; simp at h
  · intro h
    exact isLoaded_of_own reg n true h

theorem truthy_isLoaded_iff (reg : LoadedFiles) (n : String) :
    truthy (isLoaded reg n) = true ↔
      getOwnProperty reg n = some true ∨
        (getOwnProperty reg n = none ∧ objectPrototype n ≠ none) := by
  cases hown : getOwnProperty reg n with
  | some b =>
    rw [isLoaded_of_own reg n b hown]
    cases b <;> simp [truthy]
  | none =>
    rcases isLoaded_of_not_own reg n hown with ⟨h1, h2⟩ | ⟨h1, ref, h2⟩
    · rw [h2]; simp [truthy, h1]
    · rw [h2]; simp [truthy, h1]

/-! ## Properties of `load`, `call` and `run` -/

theorem markLoadedEach_ok (S : List String) (reg : LoadedFiles) :
    markLoadedEach reg S = .ok (S.foldl (fun r s => (ordinarySet r s true).1) reg) := by
  induction S generalizing reg with
  | nil => rfl
  | cons s rest ih => simp [markLoadedEach, setLoaded_ok, ih]

theorem forEachLoop_setLoaded (paths : List String) (remaining : Nat) :
    ∀ (k : Nat) (reg : LoadedFiles), k + remaining = paths.length →
      forEachLoop paths (fun st name => setLoaded st name) remaining k reg =
        markLoadedEach reg (paths.drop k) := by
  induction remaining with
  | zero =>
    intro k reg hk
    have : paths.drop k = [] := List.drop_eq_nil_of_le (by omega)
    simp [forEachLoop, this, markLoadedEach]
  | succ m ih =>
    intro k reg hk
    have hlt : k < paths.length := by omega
    have hdrop : paths.drop k = paths[k] :: paths.drop (k + 1) :=
      List.drop_eq_getElem_cons hlt
    have hget : paths[k]? = some paths[k] := List.getElem?_eq_getElem hlt
    rw [hdrop]
    simp only [forEachLoop, hget, markLoadedEach]
    rw [setLoaded_ok reg paths[k]]
    exact ih (k + 1) _ (by omega)

theorem load_eq_markLoadedEach (reg : LoadedFiles) (S : List String) :
    load reg S = markLoadedEach reg S := by
  have h := forEachLoop_setLoaded S S.length 0 reg (by simp)
  simpa [load, forEach] using h

theorem load_ok (reg : LoadedFiles) (S : List String) :
    load reg S = .ok (S.foldl (fun r s => (ordinarySet r s true).1) reg) := by
  rw [load_eq_markLoadedEach, markLoadedEach_ok]

/-- The own properties after a batch of writes of `true`. -/
theorem getOwnProperty_foldl (S : List String) (reg : LoadedFiles) (n : String) :
    getOwnProperty (S.foldl (fun r s => (ordinarySet r s true).1) reg) n =
      if n ∈ S ∧ (getOwnProperty reg n ≠ none ∨ n ≠ "__proto__") then some true
      else getOwnProperty reg n := by
  induction S generalizing reg with
  | nil => simp
  | cons s rest ih =>
    simp only [List.foldl_cons]
    rw [ih, getOwnProperty_ordinarySet]
    by_cases hns : n = s
    · subst hns
      by_cases hset : getOwnProperty reg n ≠ none ∨ n ≠ "__proto__"
      · simp [hset]
      · simp [hset]
    · simp [hns]

theorem call_ok (reg : LoadedFiles) (c : Call) :
    ∃ out, call reg c = .ok out ∧ ∀ n, getOwnProperty out.1 n =
      if c.marks n ∧ (getOwnProperty reg n ≠ none ∨ n ≠ "__proto__") then some true
      else getOwnProperty reg n := by
  cases c with
  | setLoaded name =>
    refine ⟨((ordinarySet reg name true).1, .undefined), by simp [call, setLoaded_ok], ?_⟩
    intro n
    simp only [getOwnProperty_ordinarySet, Call.marks]
    by_cases h : n = name
    · subst h; simp
    · have h2 : ¬ name = n := fun e => h e.symm
      simp [h, h2]
  | load paths =>
    refine ⟨(paths.foldl (fun r s => (ordinarySet r s true).1) reg, .undefined),
      by simp [call, load_ok], ?_⟩
    intro n
    simp only [getOwnProperty_foldl, Call.marks]
  | isLoaded name =>
    exact ⟨(reg, isLoaded reg name), rfl, by simp [Call.marks]⟩

theorem run_ok (calls : List Call) (reg : LoadedFiles) :
    ∃ r, run reg calls = .ok r ∧ ∀ n, getOwnProperty r n =
      if (∃ c ∈ calls, c.marks n) ∧ (getOwnProperty reg n ≠ none ∨ n ≠ "__proto__")
      then some true else getOwnProperty reg n := by
  induction calls generalizing reg with
  | nil => exact ⟨reg, rfl, by simp⟩
  | cons c cs ih =>
    obtain ⟨out, hcall, hout⟩ := call_ok reg c
    obtain ⟨r, hrun, hr⟩ := ih out.1
    refine ⟨r, by simp [run, hcall, hrun], ?_⟩
    intro n
    rw [hr n, hout n]
    by_cases hc : c.marks n
    · by_cases hset : getOwnProperty reg n ≠ none ∨ n ≠ "__proto__"
      · simp [hc, hset]
      · simp [hc, hset]
    · simp [hc]

theorem defineOwnValue_of_own (o : LoadedFiles) (p : String) (b : Bool)
    (h : getOwnProperty o p = some b) : defineOwnValue o p b = o := by
  induction o with
  | nil => rfl
  | cons kv rest ih =>
    obtain ⟨k, v⟩ := kv
    by_cases hk : k = p
    · simp [getOwnProperty, hk] at h
      simp [defineOwnValue, hk, h]
    · simp [getOwnProperty, hk] at h
      simp [defineOwnValue, hk, ih h]

/-- Writing the value a key already holds changes nothing. -/
theorem ordinarySet_of_own (o : LoadedFiles) (p : String) (b : Bool)
    (h : getOwnProperty o p = some b) : (ordinarySet o p b).1 = o := by
  simp [ordinarySet, h, defineOwnValue_of_own]

/-- The write `loadedFiles["__proto__"] = b` on an object without such an own
property goes to the inherited setter and leaves the object as it was. -/
theorem ordinarySet_proto_noop (o : LoadedFiles) (b : Bool)
    (h : getOwnProperty o "__proto__" = none) : (ordinarySet o "__proto__" b).1 = o := by
  simp [ordinarySet, h, objectPrototype_proto, protoSetter]

theorem ordinarySet_idem (o : LoadedFiles) (p : String) (b : Bool) :
    (ordinarySet (ordinarySet o p b).1 p b).1 = (ordinarySet o p b).1 := by
  by_cases hset : getOwnProperty o p ≠ none ∨ p ≠ "__proto__"
  · apply ordinarySet_of_own
    rw [getOwnProperty_ordinarySet]
    simp [hset]
  · have h1 : getOwnProperty o p = none := by
      by_contra hc; exact hset (Or.inl hc)
    have h2 : p = "__proto__" := by
      by_contra hc; exact hset (Or.inr hc)
    subst h2
    rw [ordinarySet_proto_noop o b h1, ordinarySet_proto_noop o b h1]

theorem run_map_setLoaded (S : List String) (reg : LoadedFiles) :
    run reg (S.map Call.setLoaded) = markLoadedEach reg S := by
  induction S generalizing reg with
  | nil => rfl
  | cons s rest ih => simp [run, call, markLoadedEach, setLoaded_ok, ih]

theorem run_cons_setLoaded (n : String) (cs : List Call) (reg : LoadedFiles) :
    run reg (Call.setLoaded n :: cs) = run (ordinarySet reg n true).1 cs := by
  simp [run, call, setLoaded_ok]

theorem run_replicate_setLoaded (n : String) (k : Nat) (reg : LoadedFiles) :
    run reg (List.replicate (k + 1) (Call.setLoaded n)) =
      .ok (ordinarySet reg n true).1 := by
  induction k generalizing reg with
  | zero => simp [run, call, setLoaded_ok]
  | succ m ih =>
    rw [List.replicate_succ, run_cons_setLoaded, ih, ordinarySet_idem]

/-! ## What holds around the inherited names

The three statements below are the parts of the registry contract that the
code does satisfy for the names where inheritance plays no role; the
evaluations at the inherited names follow them. -/

/-- For a name that is not a key of `Object.prototype`, from the fresh
registry: `isLoaded` answers `true` exactly when an earlier call marked the
name, and `false` otherwise. -/
theorem isLoaded_run_of_not_inherited (calls : List Call) (n : String)
    (hn : objectPrototype n = none) :
    ∃ r, run loadedFiles calls = .ok r ∧
      (isLoaded r n = .boolean true ↔ ∃ c ∈ calls, c.marks n) ∧
      (¬ (∃ c ∈ calls, c.marks n) → isLoaded r n = .boolean false) := by
  have hne : n ≠ "__proto__" := by
    intro h
    rw [h, objectPrototype_proto] at hn
    simp at hn
  obtain ⟨r, hrun, hr⟩ := run_ok calls loadedFiles
  refine ⟨r, hrun, ?_, ?_⟩
  · rw [isLoaded_eq_true_iff, hr n]
    simp [hne, loadedFiles, getOwnProperty]
  · intro hnot
    have hown : getOwnProperty r n = none := by
      rw [hr n]; simp [hnot, loadedFiles, getOwnProperty]
    rcases isLoaded_of_not_own r n hown with ⟨_, h⟩ | ⟨h, _⟩
    · exact h
    · exact absurd hn h

/-- After `setLoaded(n)` the query `isLoaded(n)` is truthy for every name, and
is the boolean `true` for every name that reaches an own property (any name
but `__proto__`, or an own `__proto__`). -/
theorem isLoaded_setLoaded_self (reg : LoadedFiles) (n : String) :
    ∃ r, setLoaded reg n = .ok r ∧ truthy (isLoaded r n) = true ∧
      (getOwnProperty reg n ≠ none ∨ n ≠ "__proto__" → isLoaded r n = .boolean true) := by
  refine ⟨_, setLoaded_ok reg n, ?_, ?_⟩
  · rw [truthy_isLoaded_iff, getOwnProperty_ordinarySet]
    by_cases hset : getOwnProperty reg n ≠ none ∨ n ≠ "__proto__"
    · simp [hset]
    · have h1 : getOwnProperty reg n = none := by
        by_contra hc; exact hset (Or.inl hc)
      have h2 : n = "__proto__" := by
        by_contra hc; exact hset (Or.inr hc)
      right
      subst h2
      simp [h1, objectPrototype_proto]
  · intro hset
    rw [isLoaded_eq_true_iff, getOwnProperty_ordinarySet]
    simp [hset]

/-- After `load(S)`: every element of `S` is truthy under `isLoaded`, is the
boolean `true` unless it is `__proto__`, and every name outside `S` is answered
as before. -/
theorem isLoaded_load (reg : LoadedFiles) (S : List String) :
    ∃ r, load reg S = .ok r ∧
      (∀ n ∈ S, truthy (isLoaded r n) = true) ∧
      (∀ n ∈ S, n ≠ "__proto__" → isLoaded r n = .boolean true) ∧
      (∀ m, m ∉ S → isLoaded r m = isLoaded reg m) := by
  refine ⟨_, load_ok reg S, ?_, ?_, ?_⟩
  · intro n hn
    rw [truthy_isLoaded_iff, getOwnProperty_foldl]
    by_cases hset : getOwnProperty reg n ≠ none ∨ n ≠ "__proto__"
    · simp [hn, hset]
    · have h1 : getOwnProperty reg n = none := by
        by_contra hc; exact hset (Or.inl hc)
      have h2 : n = "__proto__" := by
        by_contra hc; exact hset (Or.inr hc)
      right
      subst h2
      simp [h1, objectPrototype_proto]
  · intro n hn hne
    rw [isLoaded_eq_true_iff, getOwnProperty_foldl]
    simp [hn, hne]
  · intro m hm
    apply isLoaded_congr
    rw [getOwnProperty_foldl]
    simp [hm]

/-- Truthiness is monotone as well: a name whose query is truthy stays truthy
through every sequence of calls. -/
theorem truthy_isLoaded_run (reg : LoadedFiles) (n : String) (calls : List Call)
    (h : truthy (isLoaded reg n) = true) :
    ∃ r, run reg calls = .ok r ∧ truthy (isLoaded r n) = true := by
  obtain ⟨r, hrun, hr⟩ := run_ok calls reg
  refine ⟨r, hrun, ?_⟩
  rw [truthy_isLoaded_iff] at h ⊢
  rw [hr n]
  rcases h with h | ⟨h1, h2⟩
  · left; simp [h]
  · by_cases hm : (∃ c ∈ calls, c.marks n) ∧ (getOwnProperty reg n ≠ none ∨ n ≠ "__proto__")
    · left; rw [if_pos hm]
    · right; rw [if_neg hm]; exact ⟨h1, h2⟩

/-! ## Queries, batches and reachable states -/

theorem run_append (xs ys : List Call) (reg : LoadedFiles) :
    run reg (xs ++ ys) =
      match run reg xs with
      | .ok r => run r ys
      | .error e => .error e := by
  induction xs generalizing reg with
  | nil => rfl
  | cons c cs ih =>
    obtain ⟨out, hcall, _⟩ := call_ok reg c
    simp only [List.cons_append, run, hcall]
    exact ih out.1

theorem run_cons_isLoaded (n : String) (cs : List Call) (reg : LoadedFiles) :
    run reg (Call.isLoaded n :: cs) = run reg cs := by
  simp [run, call]

theorem run_cons_load (S : List String) (cs : List Call) (reg : LoadedFiles) :
    run reg (Call.load S :: cs) =
      run (S.foldl (fun r s => (ordinarySet r s true).1) reg) cs := by
  simp [run, call, load_ok]

/-- A write of `true` to a key that already holds `true`, or to `__proto__` when
the object has no such own property, leaves the object as it is. -/
theorem ordinarySet_of_absorbed (r : LoadedFiles) (s : String)
    (h : getOwnProperty r s = some true ∨ (getOwnProperty r s = none ∧ s = "__proto__")) :
    (ordinarySet r s true).1 = r := by
  rcases h with h | ⟨h1, h2⟩
  · exact ordinarySet_of_own r s true h
  · subst h2
    exact ordinarySet_proto_noop r true h1

theorem absorbed_after_ordinarySet (r : LoadedFiles) (s : String) :
    getOwnProperty (ordinarySet r s true).1 s = some true ∨
      (getOwnProperty (ordinarySet r s true).1 s = none ∧ s = "__proto__") := by
  rw [getOwnProperty_ordinarySet]
  by_cases hset : getOwnProperty r s ≠ none ∨ s ≠ "__proto__"
  · left; simp [hset]
  · have h1 : getOwnProperty r s = none := by
      by_contra hc; exact hset (Or.inl hc)
    have h2 : s = "__proto__" := by
      by_contra hc; exact hset (Or.inr hc)
    right
    rw [if_neg (fun hc => hset hc.2)]
    exact ⟨h1, h2⟩

theorem absorbed_preserved (r : LoadedFiles) (s t : String)
    (h : getOwnProperty r s = some true ∨ (getOwnProperty r s = none ∧ s = "__proto__")) :
    getOwnProperty (ordinarySet r t true).1 s = some true ∨
      (getOwnProperty (ordinarySet r t true).1 s = none ∧ s = "__proto__") := by
  by_cases hst : s = t
  · subst hst
    exact absorbed_after_ordinarySet r s
  · rw [getOwnProperty_ordinarySet]
    simpa [hst] using h

theorem foldl_of_absorbed (L : List String) (r : LoadedFiles)
    (h : ∀ s ∈ L, getOwnProperty r s = some true ∨
      (getOwnProperty r s = none ∧ s = "__proto__")) :
    L.foldl (fun r s => (ordinarySet r s true).1) r = r := by
  induction L with
  | nil => rfl
  | cons t rest ih =>
    simp only [List.foldl_cons]
    rw [ordinarySet_of_absorbed r t (h t (by simp))]
    exact ih (fun s hs => h s (List.mem_cons_of_mem _ hs))

theorem foldl_filter_of_absorbed (s : String) (L : List String) (r : LoadedFiles)
    (h : getOwnProperty r s = some true ∨ (getOwnProperty r s = none ∧ s = "__proto__")) :
    (L.filter (fun t => t ≠ s)).foldl (fun r s => (ordinarySet r s true).1) r =
      L.foldl (fun r s => (ordinarySet r s true).1) r := by
  induction L generalizing r with
  | nil => rfl
  | cons t rest ih =>
    by_cases hts : t = s
    · subst hts
      have hstep : (t :: rest).filter (fun u => u ≠ t) = rest.filter (fun u => u ≠ t) := by
        simp [List.filter_cons]
      rw [hstep]
      simp only [List.foldl_cons]
      rw [ordinarySet_of_absorbed r t h]
      exact ih r h
    · have hstep : (t :: rest).filter (fun t => t ≠ s) =
          t :: rest.filter (fun t => t ≠ s) := by
        simp [List.filter_cons, hts]
      rw [hstep]
      simp only [List.foldl_cons]
      exact ih _ (absorbed_preserved r s t h)

theorem foldl_removeRepeated (S : List String) (reg : LoadedFiles) :
    (removeRepeated S).foldl (fun r s => (ordinarySet r s true).1) reg =
      S.foldl (fun r s => (ordinarySet r s true).1) reg := by
  induction S generalizing reg with
  | nil => rfl
  | cons s rest ih =>
    simp only [removeRepeated, List.foldl_cons]
    rw [foldl_filter_of_absorbed s _ _ (absorbed_after_ordinarySet reg s)]
    exact ih _

theorem foldl_twice (S : List String) (reg : LoadedFiles) :
    S.foldl (fun r s => (ordinarySet r s true).1)
        (S.foldl (fun r s => (ordinarySet r s true).1) reg) =
      S.foldl (fun r s => (ordinarySet r s true).1) reg := by
  apply foldl_of_absorbed
  intro s hs
  rw [getOwnProperty_foldl]
  by_cases hset : getOwnProperty reg s ≠ none ∨ s ≠ "__proto__"
  · left; simp [hs, hset]
  · have h1 : getOwnProperty reg s = none := by
      by_contra hc; exact hset (Or.inl hc)
    have h2 : s = "__proto__" := by
      by_contra hc; exact hset (Or.inr hc)
    right
    rw [if_neg (fun hc => hset hc.2)]
    exact ⟨h1, h2⟩

theorem mem_removeRepeated (S : List String) (n : String) :
    n ∈ removeRepeated S ↔ n ∈ S := by
  induction S with
  | nil => simp [removeRepeated]
  | cons s rest ih =>
    by_cases hns : n = s
    · simp [removeRepeated, hns]
    · simp [removeRepeated, List.mem_filter, ih, hns]

theorem nodup_removeRepeated (S : List String) : (removeRepeated S).Nodup := by
  induction S with
  | nil => simp [removeRepeated]
  | cons s rest ih =>
    simp only [removeRepeated, List.nodup_cons]
    exact ⟨by simp [List.mem_filter], ih.filter _⟩

theorem mem_defineOwnValue (o : LoadedFiles) (p : String) (b : Bool) (e : String × Bool)
    (h : e ∈ defineOwnValue o p b) : e ∈ o ∨ e.2 = b := by
  induction o with
  | nil => simp [defineOwnValue] at h
  | cons kv rest ih =>
    obtain ⟨k, v⟩ := kv
    by_cases hk : k = p
    · simp only [defineOwnValue, hk, if_true, List.mem_cons] at h
      rcases h with h | h
      · right; rw [h]
      · left; exact List.mem_cons_of_mem _ h
    · simp only [defineOwnValue, hk, if_false, List.mem_cons] at h
      rcases h with h | h
      · left; rw [h]; exact List.mem_cons_self _ _
      · rcases ih h with h2 | h2
        · left; exact List.mem_cons_of_mem _ h2
        · right; exact h2

/-- Writes of `true` keep the invariant that every stored value is `true`. -/
theorem values_true_ordinarySet (o : LoadedFiles) (p : String)
    (h : ∀ e ∈ o, e.2 = true) : ∀ e ∈ (ordinarySet o p true).1, e.2 = true := by
  intro e he
  unfold ordinarySet at he
  cases hown : getOwnProperty o p with
  | some v =>
    rw [hown] at he
    rcases mem_defineOwnValue o p true e he with h1 | h1
    · exact h e h1
    · exact h1
  | none =>
    rw [hown] at he
    cases hp : objectPrototype p with
    | none =>
      rw [hp] at he
      simp only [List.mem_append, List.mem_singleton] at he
      rcases he with h1 | h1
      · exact h e h1
      · rw [h1]
    | some d =>
      rw [hp] at he
      cases d with
      | protoAccessor => exact h e he
      | data v w =>
        cases w with
        | false => exact h e he
        | true =>
          simp only [if_true, List.mem_append, List.mem_singleton] at he
          rcases he with h1 | h1
          · exact h e h1
          · rw [h1]

theorem values_true_foldl (S : List String) (reg : LoadedFiles)
    (h : ∀ e ∈ reg, e.2 = true) :
    ∀ e ∈ S.foldl (fun r s => (ordinarySet r s true).1) reg, e.2 = true := by
  induction S generalizing reg with
  | nil => exact h
  | cons s rest ih =>
    simp only [List.foldl_cons]
    exact ih _ (values_true_ordinarySet reg s h)

theorem values_true_run (calls : List Call) (reg : LoadedFiles)
    (h : ∀ e ∈ reg, e.2 = true) :
    ∃ r, run reg calls = .ok r ∧ ∀ e ∈ r, e.2 = true := by
  induction calls generalizing reg with
  | nil => exact ⟨reg, rfl, h⟩
  | cons c cs ih =>
    cases c with
    | setLoaded n =>
      rw [run_cons_setLoaded]
      exact ih _ (values_true_ordinarySet reg n h)
    | load S =>
      rw [run_cons_load]
      exact ih _ (values_true_foldl S reg h)
    | isLoaded n =>
      rw [run_cons_isLoaded]
      exact ih reg h

/-- In every state reached from the fresh registry, every stored value is
`true`, and a name has an own record exactly when `isLoaded` returns the
boolean `true` for it. -/
theorem reachable_invariant (calls : List Call) :
    ∃ r, run loadedFiles calls = .ok r ∧ (∀ e ∈ r, e.2 = true) ∧
      ∀ n, getOwnProperty r n ≠ none ↔ isLoaded r n = .boolean true := by
  obtain ⟨r, hrun, hr⟩ := values_true_run calls loadedFiles (by simp [loadedFiles])
  refine ⟨r, hrun, hr, ?_⟩
  intro n
  rw [isLoaded_eq_true_iff]
  constructor
  · intro hne
    cases hown : getOwnProperty r n with
    | none => exact absurd hown hne
    | some v =>
      have := hr (n, v) (mem_of_getOwnProperty r n v hown)
      simp only at this
      rw [this]
  · intro h
    simp [h]

/-- The query on an arbitrary table of booleans: `true` exactly for an own
record `true`, `false` for an own record `false`, and `false` for an absent
name that is not a key of `Object.prototype`. -/
theorem isLoaded_of_mapping (reg : LoadedFiles) (n : String) :
    (isLoaded reg n = .boolean true ↔ getOwnProperty reg n = some true) ∧
      (getOwnProperty reg n = some false → isLoaded reg n = .boolean false) ∧
      (getOwnProperty reg n = none → objectPrototype n = none →
        isLoaded reg n = .boolean false) := by
  refine ⟨isLoaded_eq_true_iff reg n, isLoaded_of_own reg n false, ?_⟩
  intro h1 h2
  rcases isLoaded_of_not_own reg n h1 with ⟨_, h⟩ | ⟨h, _⟩
  · exact h
  · exact absurd h2 h

/-! ## The claims -/

/-- C1, evaluated at its failing input.  On the fresh registry, with no call
made at all, the query `isLoaded("constructor")` returns the function `Object`
that `loadedFiles` inherits from `Object.prototype`: a truthy value and not
`false`, although the name was never marked. -/
theorem isLoaded_constructor_on_fresh_registry :
    run loadedFiles [] = .ok loadedFiles ∧
      call loadedFiles (.isLoaded "constructor") = .ok (loadedFiles, .object .Object) ∧
      isLoaded loadedFiles "constructor" ≠ .boolean false ∧
      truthy (isLoaded loadedFiles "constructor") = true := by
  decide

/-- C2, evaluated at its failing input.  On the fresh registry
`setLoaded("__proto__")` stores nothing (the write reaches the inherited
`__proto__` setter, which ignores a boolean), and `isLoaded("__proto__")`
afterwards returns the object `Object.prototype`, not the boolean `true`. -/
theorem setLoaded_proto_on_fresh_registry :
    setLoaded loadedFiles "__proto__" = .ok loadedFiles ∧
      isLoaded loadedFiles "__proto__" = .object .ObjectPrototype ∧
      ¬ ∃ r, setLoaded loadedFiles "__proto__" = .ok r ∧
        isLoaded r "__proto__" = .boolean true := by
  refine ⟨by decide, by decide, ?_⟩
  rintro ⟨r, h1, h2⟩
  have h3 : setLoaded loadedFiles "__proto__" = .ok loadedFiles := by decide
  rw [h3] at h1
  cases h1
  revert h2
  decide

/-- C3.  Monotonic loading: when `isLoaded(n)` returns `true` in a registry
state, then after every finite sequence of `setLoaded`, `load` and `isLoaded`
calls with arbitrary arguments the sequence has completed and `isLoaded(n)`
still returns `true`. -/
theorem isLoaded_true_run (reg : LoadedFiles) (n : String) (calls : List Call)
    (h : isLoaded reg n = .boolean true) :
    ∃ r, run reg calls = .ok r ∧ isLoaded r n = .boolean true := by
  obtain ⟨r, hrun, hr⟩ := run_ok calls reg
  refine ⟨r, hrun, ?_⟩
  rw [isLoaded_eq_true_iff] at h ⊢
  rw [hr n]
  simp [h]

theorem isLoaded_true_run_witness :
    isLoaded [("app.core", true)] "app.core" = .boolean true ∧
      ∃ r, run [("app.core", true)]
          [.load ["app.util", "toString"], .isLoaded "app.core", .setLoaded "app.core"] = .ok r ∧
        isLoaded r "app.core" = .boolean true :=
  ⟨by decide, isLoaded_true_run [("app.core", true)] "app.core" _ (by decide)⟩

/-- C4, evaluated at its failing input.  On the fresh registry
`load(["app.core", "__proto__"])` records only `app.core`; afterwards
`isLoaded("__proto__")` returns the object `Object.prototype` and not `true`
although the name occurs in the sequence, and `isLoaded("constructor")`
returns the function `Object` and not `false` although that name was never
marked. -/
theorem load_proto_on_fresh_registry :
    load loadedFiles ["app.core", "__proto__"] = .ok [("app.core", true)] ∧
      isLoaded [("app.core", true)] "__proto__" = .object .ObjectPrototype ∧
      isLoaded [("app.core", true)] "constructor" = .object .Object ∧
      isLoaded loadedFiles "constructor" = .object .Object := by
  decide

/-- C5.  For every registry state and every sequence `S` of strings, `load(S)`
gives exactly the result of calling `setLoaded` once per element of `S`, in the
order of `S`: both as the spec words it (`markLoadedEach`) and as the sequence
of calls `setLoaded(s1); ...; setLoaded(sk)` run one after the other. -/
theorem load_eq_successive_setLoaded (reg : LoadedFiles) (S : List String) :
    load reg S = markLoadedEach reg S ∧
      load reg S = run reg (S.map Call.setLoaded) := by
  refine ⟨load_eq_markLoadedEach reg S, ?_⟩
  rw [run_map_setLoaded, load_eq_markLoadedEach]

/-- C6.  `setLoaded` is idempotent: for every registry state and every string
`n`, the call `setLoaded(n)` completes in a state `r`; calling `setLoaded(n)`
again in `r` gives `r` again, and `k + 1` calls in a row from the starting
state also end in `r`, so every later `isLoaded` query is answered alike. -/
theorem setLoaded_idempotent (reg : LoadedFiles) (n : String) :
    ∃ r, setLoaded reg n = .ok r ∧ setLoaded r n = .ok r ∧
      (∀ k, run reg (List.replicate (k + 1) (Call.setLoaded n)) = .ok r) ∧
      (∀ k r2, run reg (List.replicate (k + 1) (Call.setLoaded n)) = .ok r2 →
        ∀ m, isLoaded r2 m = isLoaded r m) := by
  refine ⟨_, setLoaded_ok reg n, ?_, ?_, ?_⟩
  · rw [setLoaded_ok, ordinarySet_idem]
  · intro k
    exact run_replicate_setLoaded n k reg
  · intro k r2 h m
    rw [run_replicate_setLoaded] at h
    cases h
    rfl

/-- C7.  Order independence of `load`: for every registry state and every two
sequences that are permutations of each other, both loads complete and
`isLoaded` gives the same answer on every string in the two resulting
states. -/
theorem load_perm (reg : LoadedFiles) (S T : List String) (h : S.Perm T) :
    ∃ r1 r2, load reg S = .ok r1 ∧ load reg T = .ok r2 ∧
      ∀ n, isLoaded r1 n = isLoaded r2 n := by
  refine ⟨_, _, load_ok reg S, load_ok reg T, ?_⟩
  intro n
  apply isLoaded_congr
  rw [getOwnProperty_foldl, getOwnProperty_foldl]
  simp [h.mem_iff]

theorem load_perm_witness :
    List.Perm ["app.util", "app.core", "app.util"] ["app.core", "app.util", "app.util"] ∧
      ∃ r1 r2, load [("x", false)] ["app.util", "app.core", "app.util"] = .ok r1 ∧
        load [("x", false)] ["app.core", "app.util", "app.util"] = .ok r2 ∧
        ∀ n, isLoaded r1 n = isLoaded r2 n :=
  ⟨by decide, load_perm [("x", false)] _ _ (by decide)⟩

/-- C8.  For every registry state, `load([])` completes and leaves the state
unchanged, so `isLoaded(n)` answers the same before and after for every
string `n`. -/
theorem load_nil (reg : LoadedFiles) :
    ∃ r, load reg [] = .ok r ∧ r = reg ∧ ∀ n, isLoaded r n = isLoaded reg n :=
  ⟨reg, rfl, rfl, fun _ => rfl⟩

/-- C9.  No merging or aliasing: for every registry state and all strings `n`
and `m` with `m` different from `n`, `setLoaded(n)` completes and changes
neither the answer of `isLoaded(m)` nor the stored record of `m`. -/
theorem setLoaded_frame (reg : LoadedFiles) (n m : String) (h : m ≠ n) :
    ∃ r, setLoaded reg n = .ok r ∧ isLoaded r m = isLoaded reg m ∧
      getOwnProperty r m = getOwnProperty reg m := by
  have hown : getOwnProperty (ordinarySet reg n true).1 m = getOwnProperty reg m := by
    rw [getOwnProperty_ordinarySet]
    simp [h]
  exact ⟨_, setLoaded_ok reg n, isLoaded_congr _ _ _ hown, hown⟩

theorem setLoaded_frame_witness :
    "app.util" ≠ "app.core" ∧
      ∃ r, setLoaded [("app.util", false)] "app.core" = .ok r ∧
        isLoaded r "app.util" = isLoaded [("app.util", false)] "app.util" ∧
        getOwnProperty r "app.util" = getOwnProperty [("app.util", false)] "app.util" :=
  ⟨by decide, setLoaded_frame [("app.util", false)] "app.core" "app.util" (by decide)⟩

/-- C10.  None of the three operations can fail: in every registry state,
`setLoaded(n)` and `isLoaded(n)` complete for every string `n`, `load(S)`
completes for every finite sequence `S` of strings, and so does every single
call and every sequence of calls; the assignment inside `setLoaded` succeeds
whether or not the surrounding code is strict. -/
theorem operations_never_throw (reg : LoadedFiles) :
    (∀ n, ∃ r, setLoaded reg n = .ok r) ∧
      (∀ n, ∃ v, call reg (.isLoaded n) = .ok (reg, v)) ∧
      (∀ S, ∃ r, load reg S = .ok r) ∧
      (∀ c, ∃ out, call reg c = .ok out) ∧
      (∀ calls, ∃ r, run reg calls = .ok r) ∧
      (∀ strict n, putValue strict reg n true = setLoaded reg n) := by
  refine ⟨fun n => ⟨_, setLoaded_ok reg n⟩, fun n => ⟨isLoaded reg n, rfl⟩,
    fun S => ⟨_, load_ok reg S⟩, ?_, ?_, ?_⟩
  · intro c
    obtain ⟨out, h, _⟩ := call_ok reg c
    exact ⟨out, h⟩
  · intro calls
    obtain ⟨r, h, _⟩ := run_ok calls reg
    exact ⟨r, h⟩
  · intro strict n
    rw [putValue_ok, setLoaded_ok]

/-- C11.  The concrete scenario on a fresh registry: `isLoaded("app.core")` is
`false`; after `setLoaded("app.core")`, `isLoaded("app.core")` is `true` and
`isLoaded("app.util")` is `false`; after then `load(["app.util", "app.core"])`,
`isLoaded("app.util")` is `true` and `isLoaded("app.core")` is still `true`. -/
theorem scenario_app_core :
    isLoaded loadedFiles "app.core" = .boolean false ∧
      ∃ r1, setLoaded loadedFiles "app.core" = .ok r1 ∧
        isLoaded r1 "app.core" = .boolean true ∧
        isLoaded r1 "app.util" = .boolean false ∧
        ∃ r2, load r1 ["app.util", "app.core"] = .ok r2 ∧
          isLoaded r2 "app.util" = .boolean true ∧
          isLoaded r2 "app.core" = .boolean true :=
  ⟨by decide, [("app.core", true)], by decide, by decide, by decide,
    [("app.core", true), ("app.util", true)], by decide, by decide, by decide⟩

/-- C12, evaluated at its failing input.  In the mapping that holds only
`app.util` with the value `false`, the name `toString` is absent, yet
`isLoaded("toString")` returns the function inherited from `Object.prototype`
and not `false`, while the explicit `false` of `app.util` is answered `false`:
absent and explicit-false are not answered alike. -/
theorem isLoaded_absent_toString :
    getOwnProperty [("app.util", false)] "toString" = none ∧
      isLoaded [("app.util", false)] "toString" = .object .toString ∧
      isLoaded [("app.util", false)] "toString" ≠ .boolean false ∧
      isLoaded [("app.util", false)] "app.util" = .boolean false := by
  decide

/-- C13.  `isLoaded` is a pure read: in every registry state and for every
string `n`, the call returns its answer and leaves the state as it was, so a
query repeated any number of times, or placed anywhere between other calls,
changes neither the final state nor any later answer. -/
theorem isLoaded_pure_read (reg : LoadedFiles) (n : String) :
    call reg (.isLoaded n) = .ok (reg, isLoaded reg n) ∧
      (∀ k, run reg (List.replicate k (Call.isLoaded n)) = .ok reg) ∧
      (∀ before after, run reg (before ++ Call.isLoaded n :: after) =
        run reg (before ++ after)) := by
  refine ⟨rfl, ?_, ?_⟩
  · intro k
    induction k with
    | zero => rfl
    | succ m ih => rw [List.replicate_succ, run_cons_isLoaded, ih]
  · intro before after
    rw [run_append, run_append]
    cases run reg before with
    | error e => rfl
    | ok r => exact run_cons_isLoaded n after r

/-- C14, evaluated at its failing input.  In the state reached from the fresh
registry by `setLoaded("app.core")`, the query `isLoaded("hasOwnProperty")`
returns the function inherited from `Object.prototype`: the name has no own
record, and the answer is not a boolean. -/
theorem isLoaded_hasOwnProperty_on_reachable_registry :
    run loadedFiles [.setLoaded "app.core"] = .ok [("app.core", true)] ∧
      getOwnProperty [("app.core", true)] "hasOwnProperty" = none ∧
      isLoaded [("app.core", true)] "hasOwnProperty" = .object .hasOwnProperty ∧
      ∀ b, isLoaded [("app.core", true)] "hasOwnProperty" ≠ .boolean b := by
  refine ⟨by decide, by decide, by decide, ?_⟩
  intro b
  cases b <;> decide

/-- C15.  Batch splitting: for every registry state and all sequences `xs` and
`ys` of strings, `load(xs)` completes in a state `r1`, `load(ys)` from `r1`
completes in a state `r2`, and `load(xs ++ ys)` from the starting state ends in
that same `r2`, as does the sequence of the two calls. -/
theorem load_append (reg : LoadedFiles) (xs ys : List String) :
    ∃ r1 r2, load reg xs = .ok r1 ∧ load r1 ys = .ok r2 ∧
      load reg (xs ++ ys) = .ok r2 ∧
      run reg [.load xs, .load ys] = .ok r2 := by
  refine ⟨_, _, load_ok reg xs, load_ok _ ys, ?_, ?_⟩
  · rw [load_ok, List.foldl_append]
  · rw [run_cons_load, run_cons_load]
    rfl

/-- C16.  Duplicates are harmless: for every registry state and every sequence
`S` of strings, `load(S)` gives the same result as `load` of `S` with the
repeated elements removed (a duplicate-free list with the same elements);
`load(S)` followed by `load(S)` ends in the state of a single `load(S)`; and
after `load` of the list that keeps the last occurrences instead
(`List.dedup`), `isLoaded` answers every string alike. -/
theorem load_removeRepeated (reg : LoadedFiles) (S : List String) :
    load reg S = load reg (removeRepeated S) ∧
      ((removeRepeated S).Nodup ∧ ∀ n, n ∈ removeRepeated S ↔ n ∈ S) ∧
      (∃ r, load reg S = .ok r ∧ load r S = .ok r ∧
        run reg [.load S, .load S] = .ok r) ∧
      (∃ r1 r2, load reg S = .ok r1 ∧ load reg S.dedup = .ok r2 ∧
        ∀ n, isLoaded r1 n = isLoaded r2 n) := by
  refine ⟨?_, ⟨nodup_removeRepeated S, mem_removeRepeated S⟩, ?_, ?_⟩
  · rw [load_ok, load_ok, foldl_removeRepeated]
  · refine ⟨_, load_ok reg S, ?_, ?_⟩
    · rw [load_ok, foldl_twice]
    · rw [run_cons_load, run_cons_load, foldl_twice]
      rfl
  · refine ⟨_, _, load_ok reg S, load_ok reg S.dedup, ?_⟩
    intro n
    apply isLoaded_congr
    rw [getOwnProperty_foldl, getOwnProperty_foldl]
    simp [List.mem_dedup]

end ShadowBoot
